import Mathlib

/-!
Verification of the event decoding core of `substrate-subxt`
(`src/events.rs`): the type-registry-driven event stream decoder
(`EventsDecoder::decode_events`), the recursive type walker
(`EventsDecoder::decode_type`), and the typed projection
(`RawEvent::as_event`), together with the SCALE codec primitives they
rely on (fixed-width little-endian integers, booleans, strings, and the
variable-length "compact" integer encoding of `parity-scale-codec`).

Machine integers are modelled as `Nat` (bytes as `UInt8`); fallible
decoding returns explicit result values; the unbounded Rust recursion of
`decode_type` is modelled with an explicit fuel parameter (`ERes.fuelOut`
marks a computation that did not complete within the given call depth;
the Rust function's behaviour is the result at any sufficient fuel, and
divergence is `fuelOut` at every fuel).
-/

/-- Error type, flattening the crate's `Error` enum as used by
`events.rs`: wire-format failures from `codec` (`CodecError`),
`MetadataError::TypeNotFound` / event lookup failure,
`Error::Other` (the "Variant not found" case), and the three
`EventsDecodingError` variants.  `panicked` models a Rust panic
(`unimplemented!`), which aborts rather than returning a value. -/
inductive DecErr where
  | codec (msg : String)
  | typeNotFound (id : Nat)
  | eventNotFound (palletIndex variantIndex : Nat)
  | other (msg : String)
  | unsupportedPrimitive (p : Nat)
  | invalidCompactPrimitive (p : Nat)
  | invalidCompactType (msg : String)
  | panicked (msg : String)
  deriving DecidableEq, Repr

/-- `scale_info::TypeDefPrimitive`. -/
inductive TypeDefPrimitive where
  | bool | char | str
  | u8 | u16 | u32 | u64 | u128 | u256
  | i8 | i16 | i32 | i64 | i128 | i256
  deriving DecidableEq, Repr

/-- A numeric code for a primitive, used to carry the offending
primitive inside `UnsupportedPrimitive` / `InvalidCompactPrimitive`
errors (the Rust errors store the `TypeDefPrimitive` itself). -/
def TypeDefPrimitive.code : TypeDefPrimitive → Nat
  | .bool => 0 | .char => 1 | .str => 2
  | .u8 => 3 | .u16 => 4 | .u32 => 5 | .u64 => 6 | .u128 => 7 | .u256 => 8
  | .i8 => 9 | .i16 => 10 | .i32 => 11 | .i64 => 12 | .i128 => 13
  | .i256 => 14

/-- `scale_info::TypeDef` restricted to what `decode_type` reads from it:
composite field type ids, variant field-id lists indexed by position
(the code looks variants up with `variants().get(variant_index)`),
sequence/array/tuple element type ids, the primitive kind, the compact
type parameter id, and the bit-sequence marker. -/
inductive TypeDef where
  | composite (fields : List Nat)
  | variant (variants : List (List Nat))
  | sequence (typeParam : Nat)
  | array (len : Nat) (typeParam : Nat)
  | tuple (fields : List Nat)
  | primitive (p : TypeDefPrimitive)
  | compact (typeParam : Nat)
  | bitSequence
  deriving DecidableEq, Repr

/-- One entry of the event registry: pallet name, event name and the
ordered list of field type ids (`EventMetadata` with
`pallet()`, `event()` and `variant().fields()`). -/
structure EventMetadata where
  pallet : String
  event : String
  fields : List Nat
  deriving DecidableEq, Repr

/-- Modelled from the spec: the repository's `Metadata` type lives in the
`metadata` module, which is not under `src/`; per the spec (sections 2
and 3) it is an immutable, read-only store mapping numeric type ids to
type definitions (`resolve_type`, returning nothing when the id is
absent) and mapping `(pallet_index, variant_index)` pairs to event
schemas (`event`, failing with an event-not-found error when absent). -/
structure Metadata where
  types : Nat → Option TypeDef
  events : Nat → Nat → Option EventMetadata

/-- `Metadata::resolve_type`. -/
def Metadata.resolve_type (m : Metadata) (id : Nat) : Option TypeDef :=
  m.types id

/-- A phase of a block's execution (`Phase` in `lib.rs`), SCALE-decoded
positionally: index 0 carries a `u32`. -/
inductive Phase where
  | applyExtrinsic (index : Nat)
  | finalization
  | initialization
  deriving DecidableEq, Repr

/-- `RawEvent` (`events.rs`): names, indices and the re-encoded data. -/
structure RawEvent where
  pallet : String
  pallet_index : UInt8
  variant : String
  variant_index : UInt8
  data : List UInt8
  deriving DecidableEq, Repr

deriving instance DecidableEq for Except

/-- Result of a fuel-bounded decoding step: success, a typed error
(or panic), or fuel exhaustion (the Rust recursion at this call depth
has not completed). -/
inductive ERes (α : Type) where
  | ok (a : α)
  | err (e : DecErr)
  | fuelOut
  deriving DecidableEq, Repr

/-! ## SCALE codec primitives (`parity-scale-codec`) -/

/-- `Input::read_byte` over a byte slice: take one byte or fail. -/
def readByte : List UInt8 → Except DecErr (UInt8 × List UInt8)
  | [] => .error (.codec "Not enough data to fill buffer")
  | b :: r => .ok (b, r)

/-- `Input::read` over a byte slice: take `n` bytes or fail without
consuming (the slice implementation checks the length first). -/
def readBytes (n : Nat) (l : List UInt8) :
    Except DecErr (List UInt8 × List UInt8) :=
  if n ≤ l.length then .ok (l.take n, l.drop n)
  else .error (.codec "Not enough data to fill buffer")

/-- Little-endian value of a byte list (first byte least significant). -/
def fromLE (bs : List UInt8) : Nat :=
  bs.foldr (fun b acc => b.toNat + 256 * acc) 0

/-- Little-endian encoding of `v` on `n` bytes (truncating above). -/
def toLE : Nat → Nat → List UInt8
  | 0, _ => []
  | n + 1, v => UInt8.ofNat (v % 256) :: toLE n (v / 256)

/-- Decode a fixed-width unsigned little-endian integer of `n` bytes
(`u8ⁿ::decode`); signed integers read the same bytes (the value is the
two's-complement bit pattern, which is all re-encoding needs). -/
def decodeUIntLE (n : Nat) (l : List UInt8) :
    Except DecErr (Nat × List UInt8) :=
  match readBytes n l with
  | .error e => .error e
  | .ok (bs, rest) => .ok (fromLE bs, rest)

/-- `bool::decode`: one byte, `0` or `1`, anything else is an error. -/
def decodeBool (l : List UInt8) : Except DecErr (Bool × List UInt8) :=
  match readByte l with
  | .error e => .error e
  | .ok (b, rest) =>
    if b = 0 then .ok (false, rest)
    else if b = 1 then .ok (true, rest)
    else .error (.codec "Invalid boolean representation")

/-- The five unsigned widths for which `Compact<uN>` decoding exists. -/
inductive CWidth where
  | w8 | w16 | w32 | w64 | w128
  deriving DecidableEq, Repr

/-- Maximum number of big-integer-mode bytes each width accepts. -/
def CWidth.maxBytes : CWidth → Nat
  | .w8 => 1 | .w16 => 2 | .w32 => 4 | .w64 => 8 | .w128 => 16

/-- Upper bound of the two-byte compact mode for a width (`u8` caps the
value at 255, larger widths at `0x3FFF`). -/
def CWidth.mode1Hi : CWidth → Nat
  | .w8 => 0xFF
  | _ => 0x3FFF

/-- Upper bound of the four-byte compact mode for a width (`u16` caps
the value at `0xFFFF`, larger widths at `0x3FFFFFFF`). -/
def CWidth.mode2Hi : CWidth → Nat
  | .w16 => 0xFFFF
  | _ => 0x3FFFFFFF

/-- Canonicity threshold of the big-integer compact mode on `bn` bytes:
the decoded value must exceed the largest value encodable in the next
smaller form (`u32::MAX >> 2` for 4 bytes, otherwise the largest
`bn - 1`-byte value). -/
def compactThreshold (bn : Nat) : Nat :=
  if bn = 4 then 2 ^ 30 - 1 else 2 ^ (8 * (bn - 1)) - 1

/-- `Compact<uN>::decode`: the four-mode SCALE compact integer decoder,
with the canonical-range checks of `parity-scale-codec`.  Returns the
result together with the input position after the call (a failing decode
can consume bytes before failing; the caller `decode_type` discards one
such result). -/
def decodeCompact (w : CWidth) (input : List UInt8) :
    Except DecErr Nat × List UInt8 :=
  match input with
  | [] => (.error (.codec "Not enough data to fill buffer"), [])
  | p :: rest =>
    let pn := p.toNat
    if pn % 4 = 0 then (.ok (pn / 4), rest)
    else if pn % 4 = 1 then
      match rest with
      | [] => (.error (.codec "Not enough data to fill buffer"), rest)
      | b1 :: r1 =>
        let x := (pn + 256 * b1.toNat) / 4
        if 0x3F < x ∧ x ≤ w.mode1Hi then (.ok x, r1)
        else (.error (.codec "out of range decoding Compact"), r1)
    else if pn % 4 = 2 then
      if w = .w8 then
        (.error (.codec "unexpected prefix decoding Compact"), rest)
      else
        match rest with
        | b1 :: b2 :: b3 :: r3 =>
          let x := (pn + 256 * b1.toNat + 65536 * b2.toNat
                      + 16777216 * b3.toNat) / 4
          if 0x3FFF < x ∧ x ≤ w.mode2Hi then (.ok x, r3)
          else (.error (.codec "out of range decoding Compact"), r3)
        | _ => (.error (.codec "Not enough data to fill buffer"), rest)
    else
      if w = .w8 ∨ w = .w16 then
        (.error (.codec "unexpected prefix decoding Compact"), rest)
      else
        let bn := pn / 4 + 4
        if bn > w.maxBytes then
          (.error (.codec "unexpected prefix decoding Compact"), rest)
        else
          match readBytes bn rest with
          | .error e => (.error e, rest)
          | .ok (bs, r') =>
            let x := fromLE bs
            if compactThreshold bn < x then (.ok x, r')
            else (.error (.codec "out of range decoding Compact"), r')

/-- Number of bytes needed to hold `v` (minimal `n` with `v < 2^(8n)`). -/
def bytesNeeded (v : Nat) : Nat :=
  if v = 0 then 0 else bytesNeeded (v / 256) + 1
decreasing_by exact Nat.div_lt_self (Nat.pos_of_ne_zero (by assumption)) (by omega)

/-- `Compact<uN>::encode`: canonical compact encoding of a value (the
bytes do not depend on the declared width). -/
def compactEncode (v : Nat) : List UInt8 :=
  if v ≤ 0x3F then [UInt8.ofNat (v * 4)]
  else if v ≤ 0x3FFF then toLE 2 (v * 4 + 1)
  else if v ≤ 0x3FFFFFFF then toLE 4 (v * 4 + 2)
  else
    let bn := bytesNeeded v
    UInt8.ofNat ((bn - 4) * 4 + 3) :: toLE bn v

/-- Continuation-byte test for UTF-8 validation. -/
def isCont (b : UInt8) : Bool := 0x80 ≤ b.toNat && b.toNat ≤ 0xBF

/-- UTF-8 validity (`String::from_utf8` succeeds), per RFC 3629:
ASCII, two-byte `C2..DF`, three-byte `E0..EF` (with the `E0`/`ED`
restrictions) and four-byte `F0..F4` (with the `F0`/`F4` restrictions). -/
def utf8Valid : List UInt8 → Bool
  | [] => true
  | b :: r =>
    let n := b.toNat
    if n ≤ 0x7F then utf8Valid r
    else if 0xC2 ≤ n && n ≤ 0xDF then
      match r with
      | b1 :: r1 => isCont b1 && utf8Valid r1
      | [] => false
    else if 0xE0 ≤ n && n ≤ 0xEF then
      match r with
      | b1 :: b2 :: r2 =>
        (if n = 0xE0 then decide (0xA0 ≤ b1.toNat && b1.toNat ≤ 0xBF)
         else if n = 0xED then decide (0x80 ≤ b1.toNat && b1.toNat ≤ 0x9F)
         else isCont b1) && isCont b2 && utf8Valid r2
      | _ => false
    else if 0xF0 ≤ n && n ≤ 0xF4 then
      match r with
      | b1 :: b2 :: b3 :: r3 =>
        (if n = 0xF0 then decide (0x90 ≤ b1.toNat && b1.toNat ≤ 0xBF)
         else if n = 0xF4 then decide (0x80 ≤ b1.toNat && b1.toNat ≤ 0x8F)
         else isCont b1) && isCont b2 && isCont b3 && utf8Valid r3
      | _ => false
    else false

/-- `String::decode`: a compact byte count, that many bytes, and a
UTF-8 validity check; yields the string's bytes. -/
def decodeStr (l : List UInt8) : Except DecErr (List UInt8 × List UInt8) :=
  match decodeCompact .w32 l with
  | (.error e, _) => .error e
  | (.ok n, rest) =>
    match readBytes n rest with
    | .error e => .error e
    | .ok (bs, r') =>
      if utf8Valid bs then .ok (bs, r')
      else .error (.codec "Invalid utf8 sequence")

/-- `bool::encode`. -/
def encodeBool (b : Bool) : List UInt8 := [if b then 1 else 0]

/-- The `TypeDef::Primitive` arm of `decode_type` (source lines
222-254): `decode_raw::<T>` (decode, then append the re-encoding) for
each supported primitive; `Char`, `U256` and `I256` fail with
`UnsupportedPrimitive`.  Signed integers read and re-encode the same
little-endian bytes as their unsigned counterparts. -/
def decodePrimitive (p : TypeDefPrimitive) (input output : List UInt8) :
    ERes (List UInt8 × List UInt8) :=
  let fixedRaw (n : Nat) : ERes (List UInt8 × List UInt8) :=
    match decodeUIntLE n input with
    | .ok (v, rest) => .ok (rest, output ++ toLE n v)
    | .error e => .err e
  match p with
  | .bool =>
    match decodeBool input with
    | .ok (b, rest) => .ok (rest, output ++ encodeBool b)
    | .error e => .err e
  | .char => .err (.unsupportedPrimitive TypeDefPrimitive.char.code)
  | .str =>
    match decodeStr input with
    | .ok (bs, rest) => .ok (rest, output ++ compactEncode bs.length ++ bs)
    | .error e => .err e
  | .u8 => fixedRaw 1
  | .u16 => fixedRaw 2
  | .u32 => fixedRaw 4
  | .u64 => fixedRaw 8
  | .u128 => fixedRaw 16
  | .u256 => .err (.unsupportedPrimitive TypeDefPrimitive.u256.code)
  | .i8 => fixedRaw 1
  | .i16 => fixedRaw 2
  | .i32 => fixedRaw 4
  | .i64 => fixedRaw 8
  | .i128 => fixedRaw 16
  | .i256 => .err (.unsupportedPrimitive TypeDefPrimitive.i256.code)

/-- The `decode_compact_primitive` closure inside the `TypeDef::Compact`
arm of `decode_type`: for the five unsigned widths it runs
`decode_raw::<Compact<uN>>` (decode a compact integer, append its
re-encoding); any other primitive yields `InvalidCompactPrimitive`.
Returns the call's result together with the input/output state after the
call, because one caller discards the result but keeps the state. -/
def decode_compact_primitive (p : TypeDefPrimitive)
    (input output : List UInt8) :
    Except DecErr Unit × List UInt8 × List UInt8 :=
  let run (w : CWidth) : Except DecErr Unit × List UInt8 × List UInt8 :=
    match decodeCompact w input with
    | (.ok v, rest) => (.ok (), rest, output ++ compactEncode v)
    | (.error e, rest) => (.error e, rest, output)
  match p with
  | .u8 => run .w8
  | .u16 => run .w16
  | .u32 => run .w32
  | .u64 => run .w64
  | .u128 => run .w128
  | prim => (.error (.invalidCompactPrimitive prim.code), input, output)

/-- The first `match inner.type_def()` of the `TypeDef::Compact` arm
(source lines 284-320): an expression statement whose `Result` value is
discarded.  Only its side effects survive — a `decode_compact_primitive`
call advances the input and appends to the output even though its result
is dropped — plus the two `?` early returns on an unresolvable
single-field composite, which abort `decode_type` itself.  The
`Err(InvalidCompact…)` values built in the other arms are discarded with
no state change. -/
def compactFirstMatch (m : Metadata) (inner : TypeDef)
    (input output : List UInt8) :
    Except DecErr (List UInt8 × List UInt8) :=
  match inner with
  | .primitive p =>
    let (_, i', o') := decode_compact_primitive p input output
    .ok (i', o')
  | .composite fields =>
    match fields with
    | [fid] =>
      match m.resolve_type fid with
      | none => .error (.typeNotFound fid)
      | some ft =>
        match ft with
        | .primitive p =>
          let (_, i', o') := decode_compact_primitive p input output
          .ok (i', o')
        | _ => .ok (input, output)
    | _ => .ok (input, output)
  | _ => .ok (input, output)

/-! ## The recursive type walker (`EventsDecoder::decode_type`) -/

/-- The job of one recursive step of the type walker: decode a single
type (`decode_type`'s body), run the field loop of a
composite/variant/tuple, or run the element loop of a sequence/array. -/
inductive Job where
  | ty (typeId : Nat)
  | fieldList (fields : List Nat)
  | rep (typeParam : Nat) (n : Nat)
  deriving DecidableEq, Repr

/-- Fuel-bounded worker for `EventsDecoder::decode_type` (source lines
160-355).  The `.ty` arm is the body of `decode_type`: resolve `type_id`
in the registry (`TypeNotFound` if absent) and dispatch on the shape.
Composite/tuple walk their fields; variant reads and re-appends a
discriminant byte, then walks the fields of the variant at that position
(`Variant … not found` otherwise); sequence reads a compact `u32` count,
re-appends it and walks that many elements; array walks its statically
known count; primitive defers to `decodePrimitive`.  The `Compact` arm
mirrors the source faithfully: `inner` is obtained by resolving
`type_id` itself (not the compact's type parameter), a first `match` on
`inner` runs with its result discarded (`compactFirstMatch`), and the
second `match` on `inner` produces the arm's value — since `inner` is
the `compact` definition just matched, this always lands in the
nested-`Compact` workaround arm, which runs `decode_raw::<Compact<u128>>`.
`BitSequence` hits `unimplemented!`, modelled as a panic.  Fuel
decreases on every step (recursive call or loop iteration), so the
recursion is structural; a result of `fuelOut` at every fuel models a
Rust execution that never returns. -/
def decodeGo (m : Metadata) :
    Nat → Job → List UInt8 → List UInt8 → ERes (List UInt8 × List UInt8)
  | 0, _, _, _ => .fuelOut
  | fuel + 1, job, input, output =>
    match job with
    | .fieldList [] => .ok (input, output)
    | .fieldList (fid :: rest) =>
      match decodeGo m fuel (.ty fid) input output with
      | .ok (i, o) => decodeGo m fuel (.fieldList rest) i o
      | .err e => .err e
      | .fuelOut => .fuelOut
    | .rep _ 0 => .ok (input, output)
    | .rep typeParam (n + 1) =>
      match decodeGo m fuel (.ty typeParam) input output with
      | .ok (i, o) => decodeGo m fuel (.rep typeParam n) i o
      | .err e => .err e
      | .fuelOut => .fuelOut
    | .ty typeId =>
      match m.resolve_type typeId with
      | none => .err (.typeNotFound typeId)
      | some ty =>
        match ty with
        | .composite fields => decodeGo m fuel (.fieldList fields) input output
        | .variant variants =>
          match readByte input with
          | .error e => .err e
          | .ok (vi, input1) =>
            match variants.get? vi.toNat with
            | none =>
              .err (.other ("Variant " ++ toString vi.toNat ++ " not found"))
            | some fields =>
              decodeGo m fuel (.fieldList fields) input1 (output ++ [vi])
        | .sequence typeParam =>
          match decodeCompact .w32 input with
          | (.error e, _) => .err e
          | (.ok n, input1) =>
            decodeGo m fuel (.rep typeParam n) input1 (output ++ compactEncode n)
        | .array len typeParam => decodeGo m fuel (.rep typeParam len) input output
        | .tuple fields => decodeGo m fuel (.fieldList fields) input output
        | .primitive p => decodePrimitive p input output
        | .compact _ =>
          match m.resolve_type typeId with
          | none => .err (.typeNotFound typeId)
          | some inner =>
            match compactFirstMatch m inner input output with
            | .error e => .err e
            | .ok (input1, output1) =>
              match inner with
              | .primitive p =>
                match decode_compact_primitive p input1 output1 with
                | (.ok _, i2, o2) => .ok (i2, o2)
                | (.error e, _, _) => .err e
              | .composite fields =>
                match fields with
                | [fid] =>
                  match m.resolve_type fid with
                  | none => .err (.typeNotFound fid)
                  | some ft =>
                    match ft with
                    | .primitive p =>
                      match decode_compact_primitive p input1 output1 with
                      | (.ok _, i2, o2) => .ok (i2, o2)
                      | (.error e, _, _) => .err e
                    | _ =>
                      .err (.invalidCompactType
                        "Composite type must have a single primitive field")
                | _ =>
                  .err (.invalidCompactType
                    "Composite type must have a single field")
              | .compact _ =>
                match decodeCompact .w128 input1 with
                | (.ok v, i2) => .ok (i2, output1 ++ compactEncode v)
                | (.error e, _) => .err e
              | _ =>
                .err (.invalidCompactType
                  "Compact type must be a primitive or a composite type")
        | .bitSequence =>
          .err (.panicked "BitVec decoding for events not implemented yet")

/-- `EventsDecoder::decode_type`, fuel-bounded. -/
def decode_type (fuel : Nat) (m : Metadata) (typeId : Nat)
    (input output : List UInt8) : ERes (List UInt8 × List UInt8) :=
  decodeGo m fuel (.ty typeId) input output

/-- The field loop of the composite/variant/tuple arms: one
`decode_type` call per field type id, threading input and output. -/
def decodeFieldList (fuel : Nat) (m : Metadata) (fields : List Nat)
    (input output : List UInt8) : ERes (List UInt8 × List UInt8) :=
  decodeGo m fuel (.fieldList fields) input output

/-- The element loop of the sequence/array arms: `n` successive
`decode_type` calls on the element type. -/
def decodeRepeat (fuel : Nat) (m : Metadata) (typeParam : Nat) (n : Nat)
    (input output : List UInt8) : ERes (List UInt8 × List UInt8) :=
  decodeGo m fuel (.rep typeParam n) input output

/-! ## The event stream decoder (`EventsDecoder::decode_events`) -/

/-- `Phase::decode` (derived): index byte `0` reads a little-endian
`u32` (`ApplyExtrinsic`), `1` is `Finalization`, `2` is
`Initialization`, anything else is a codec error. -/
def decodePhase (input : List UInt8) : Except DecErr (Phase × List UInt8) :=
  match readByte input with
  | .error e => .error e
  | .ok (b, rest) =>
    if b = 0 then
      match decodeUIntLE 4 rest with
      | .ok (v, r') => .ok (.applyExtrinsic v, r')
      | .error e => .error e
    else if b = 1 then .ok (.finalization, rest)
    else if b = 2 then .ok (.initialization, rest)
    else .error (.codec "Could not decode Phase, variant does not exist")

/-- Read `n` fixed-width hashes of `hashLen` bytes each (the element
reads of `Vec<T::Hash>::decode`; the hash width is the `Config`
instance's fixed hash size). -/
def readHashes (hashLen : Nat) : Nat → List UInt8 → Except DecErr (List UInt8)
  | 0, l => .ok l
  | n + 1, l =>
    match readBytes hashLen l with
    | .error e => .error e
    | .ok (_, rest) => readHashes hashLen n rest

/-- `Vec::<T::Hash>::decode`: a compact `u32` count followed by that
many fixed-width hashes; the topics are read and discarded, so only the
remaining input matters. -/
def decodeTopics (hashLen : Nat) (input : List UInt8) :
    Except DecErr (List UInt8) :=
  match decodeCompact .w32 input with
  | (.error e, _) => .error e
  | (.ok n, rest) => readHashes hashLen n rest

/-- `EventsDecoder::decode_raw_event`: walk each declared field of the
event's variant with `decode_type`, accumulating into `output`. -/
def decode_raw_event (fuel : Nat) (m : Metadata) (em : EventMetadata)
    (input output : List UInt8) : ERes (List UInt8 × List UInt8) :=
  decodeFieldList fuel m em.fields input output

/-- One iteration of the `decode_events` loop (source lines 100-138):
read the `Phase`, one `pallet_index` byte and one `variant_index` byte,
look the event up in the registry, walk its fields into a fresh buffer,
then read and discard the trailing topics; yields the `(Phase, RawEvent)`
pair and the remaining input. -/
def decodeRecord (fuel : Nat) (m : Metadata) (hashLen : Nat)
    (input : List UInt8) : ERes ((Phase × RawEvent) × List UInt8) :=
  match decodePhase input with
  | .error e => .err e
  | .ok (phase, i1) =>
    match readByte i1 with
    | .error e => .err e
    | .ok (pallet_index, i2) =>
      match readByte i2 with
      | .error e => .err e
      | .ok (variant_index, i3) =>
        match m.events pallet_index.toNat variant_index.toNat with
        | none => .err (.eventNotFound pallet_index.toNat variant_index.toNat)
        | some em =>
          match decode_raw_event fuel m em i3 [] with
          | .fuelOut => .fuelOut
          | .err e => .err e
          | .ok (i4, event_data) =>
            match decodeTopics hashLen i4 with
            | .error e => .err e
            | .ok i5 =>
              .ok ((phase,
                { pallet := em.pallet, pallet_index := pallet_index,
                  variant := em.event, variant_index := variant_index,
                  data := event_data }), i5)

/-- The `for _ in 0..len` loop of `decode_events`: decode `n` records in
order, failing as a whole on the first failure. -/
def decodeEventsLoop (fuel : Nat) (m : Metadata) (hashLen : Nat) :
    Nat → List UInt8 → ERes (List (Phase × RawEvent))
  | 0, _ => .ok []
  | n + 1, input =>
    match decodeRecord fuel m hashLen input with
    | .ok (pr, rest) =>
      match decodeEventsLoop fuel m hashLen n rest with
      | .ok l => .ok (pr :: l)
      | .err e => .err e
      | .fuelOut => .fuelOut
    | .err e => .err e
    | .fuelOut => .fuelOut

/-- `EventsDecoder::decode_events` (source lines 91-140): read a compact
`u32` record count and run the record loop. -/
def decode_events (fuel : Nat) (m : Metadata) (hashLen : Nat)
    (input : List UInt8) : ERes (List (Phase × RawEvent)) :=
  match decodeCompact .w32 input with
  | (.error e, _) => .err e
  | (.ok len, rest) => decodeEventsLoop fuel m hashLen len rest

/-- The input position after successfully decoding `k` records
(iterating `decodeRecord`); used to state order preservation and atomic
failure. -/
def stateAfter (fuel : Nat) (m : Metadata) (hashLen : Nat) :
    Nat → List UInt8 → ERes (List UInt8)
  | 0, s => .ok s
  | k + 1, s =>
    match decodeRecord fuel m hashLen s with
    | .ok (_, s') => stateAfter fuel m hashLen k s'
    | .err e => .err e
    | .fuelOut => .fuelOut

/-! ## Typed projection (`RawEvent::as_event`) -/

/-- A statically-known event type `E` as seen by `RawEvent::as_event`:
the `Event` trait's `PALLET` and `EVENT` constants together with `E`'s
`Decode` implementation. -/
structure EventType (α : Type) where
  PALLET : String
  EVENT : String
  decode : List UInt8 → Except DecErr (α × List UInt8)

/-- `RawEvent::as_event` (source lines 62-68): when both names match,
decode the data as `E` (any decode failure is returned as an error);
otherwise answer `none` without touching the data. -/
def as_event {α : Type} (E : EventType α) (raw : RawEvent) :
    Except DecErr (Option α) :=
  if raw.pallet = E.PALLET ∧ raw.variant = E.EVENT then
    match E.decode raw.data with
    | .ok (e, _) => .ok (some e)
    | .error ce => .error ce
  else .ok none

theorem toNat_ofNat8 (n : Nat) : (UInt8.ofNat n).toNat = n % 256 := rfl

theorem ofNat_toNat8 (b : UInt8) : UInt8.ofNat b.toNat = b :=
  UInt8.ext (show b.toNat % 256 = b.toNat from Nat.mod_eq_of_lt b.toNat_lt)

/-- Re-encoding a little-endian read gives back the bytes read. -/
theorem toLE_fromLE : ∀ bs : List UInt8, toLE bs.length (fromLE bs) = bs := by
  intro bs
  induction bs with
  | nil => rfl
  | cons b r ih =>
    have hb : b.toNat < 256 := b.toNat_lt
    have hmod : (b.toNat + 256 * fromLE r) % 256 = b.toNat := by omega
    have hdiv : (b.toNat + 256 * fromLE r) / 256 = fromLE r := by omega
    simp only [List.length_cons, fromLE, List.foldr_cons, toLE]
    rw [show (List.foldr (fun b acc => b.toNat + 256 * acc) 0 r) = fromLE r from rfl,
      hmod, hdiv, ofNat_toNat8]
    exact congrArg _ ih

/-- A little-endian read of `n` bytes is below `2 ^ (8 n)`. -/
theorem fromLE_lt : ∀ bs : List UInt8, fromLE bs < 2 ^ (8 * bs.length) := by
  intro bs
  induction bs with
  | nil => simp [fromLE]
  | cons b r ih =>
    have hb : b.toNat < 256 := b.toNat_lt
    simp only [fromLE, List.foldr_cons, List.length_cons] at *
    have h2 : 2 ^ (8 * (r.length + 1)) = 256 * 2 ^ (8 * r.length) := by ring
    rw [h2]
    omega

/-- `bytesNeeded` is the exact byte count on each length's value range. -/
theorem bytesNeeded_of_bounds :
    ∀ n v, 2 ^ (8 * n) ≤ v → v < 2 ^ (8 * (n + 1)) → bytesNeeded v = n + 1 := by
  intro n
  induction n with
  | zero =>
    intro v h1 h2
    simp only [Nat.mul_zero, Nat.pow_zero] at h1
    have hv : ¬ v = 0 := by omega
    rw [bytesNeeded, if_neg hv]
    have hd : v / 256 = 0 := by
      apply Nat.div_eq_of_lt
      calc v < 2 ^ (8 * (0 + 1)) := h2
        _ = 256 := by norm_num
    rw [hd, bytesNeeded]
    simp
  | succ n ih =>
    intro v h1 h2
    have hv : ¬ v = 0 := by
      have : 0 < 2 ^ (8 * (n + 1)) := Nat.pos_pow_of_pos _ (by norm_num)
      omega
    rw [bytesNeeded, if_neg hv]
    have hlow : 2 ^ (8 * n) ≤ v / 256 := by
      rw [Nat.le_div_iff_mul_le (by norm_num : 0 < 256)]
      calc 2 ^ (8 * n) * 256 = 2 ^ (8 * (n + 1)) := by
            rw [show 8 * (n + 1) = 8 * n + 8 by ring, pow_add]; norm_num
        _ ≤ v := h1
    have hhigh : v / 256 < 2 ^ (8 * (n + 1)) := by
      rw [Nat.div_lt_iff_lt_mul (by norm_num : 0 < 256)]
      calc v < 2 ^ (8 * (n + 2)) := h2
        _ = 2 ^ (8 * (n + 1)) * 256 := by
            rw [show 8 * (n + 2) = 8 * (n + 1) + 8 by ring, pow_add]; norm_num
    rw [ih (v / 256) hlow hhigh]

/-- Canonicity of the compact integer codec: re-encoding a successfully
decoded compact value reproduces exactly the bytes consumed. -/
theorem decodeCompact_append (w : CWidth) (input : List UInt8) (v : Nat)
    (rest : List UInt8) (h : decodeCompact w input = (.ok v, rest)) :
    compactEncode v ++ rest = input := by
  cases input with
  | nil => simp [decodeCompact] at h
  | cons p r0 =>
    have hp : p.toNat < 256 := p.toNat_lt
    have hm1 : w.mode1Hi ≤ 0x3FFF := by cases w <;> decide
    have hm2 : w.mode2Hi ≤ 0x3FFFFFFF := by cases w <;> decide
    simp only [decodeCompact] at h
    by_cases h0 : p.toNat % 4 = 0
    · rw [if_pos h0] at h
      simp only [Prod.mk.injEq, Except.ok.injEq] at h
      obtain ⟨h1, h2⟩ := h
      subst h1; subst h2
      simp only [compactEncode, if_pos (by omega : p.toNat / 4 ≤ 0x3F)]
      rw [show p.toNat / 4 * 4 = p.toNat by omega, ofNat_toNat8]
      rfl
    · rw [if_neg h0] at h
      by_cases h1 : p.toNat % 4 = 1
      · rw [if_pos h1] at h
        cases r0 with
        | nil => simp at h
        | cons b1 r1 =>
          have hb1 : b1.toNat < 256 := b1.toNat_lt
          simp only at h
          by_cases hc : 0x3F < (p.toNat + 256 * b1.toNat) / 4 ∧
              (p.toNat + 256 * b1.toNat) / 4 ≤ w.mode1Hi
          · rw [if_pos hc] at h
            simp only [Prod.mk.injEq, Except.ok.injEq] at h
            obtain ⟨hv, hr⟩ := h
            subst hv; subst hr
            simp only [compactEncode,
              if_neg (by omega : ¬ (p.toNat + 256 * b1.toNat) / 4 ≤ 0x3F),
              if_pos (by omega : (p.toNat + 256 * b1.toNat) / 4 ≤ 0x3FFF)]
            rw [show (p.toNat + 256 * b1.toNat) / 4 * 4 + 1
                = p.toNat + 256 * b1.toNat by omega]
            simp only [toLE]
            rw [show (p.toNat + 256 * b1.toNat) % 256 = p.toNat by omega,
              show (p.toNat + 256 * b1.toNat) / 256 % 256 = b1.toNat by omega,
              ofNat_toNat8, ofNat_toNat8]
            rfl
          · rw [if_neg hc] at h
            simp at h
      · rw [if_neg h1] at h
        by_cases h2 : p.toNat % 4 = 2
        · rw [if_pos h2] at h
          by_cases hw8 : w = .w8
          · rw [if_pos hw8] at h; simp at h
          · rw [if_neg hw8] at h
            match r0 with
            | [] => simp at h
            | [b1] => simp at h
            | [b1, b2] => simp at h
            | b1 :: b2 :: b3 :: r3 =>
              have hb1 : b1.toNat < 256 := b1.toNat_lt
              have hb2 : b2.toNat < 256 := b2.toNat_lt
              have hb3 : b3.toNat < 256 := b3.toNat_lt
              simp only at h
              set N := p.toNat + 256 * b1.toNat + 65536 * b2.toNat
                  + 16777216 * b3.toNat with hN
              by_cases hc : 0x3FFF < N / 4 ∧ N / 4 ≤ w.mode2Hi
              · rw [if_pos hc] at h
                simp only [Prod.mk.injEq, Except.ok.injEq] at h
                obtain ⟨hv, hr⟩ := h
                subst hv; subst hr
                simp only [compactEncode,
                  if_neg (by omega : ¬ N / 4 ≤ 0x3F),
                  if_neg (by omega : ¬ N / 4 ≤ 0x3FFF),
                  if_pos (by omega : N / 4 ≤ 0x3FFFFFFF)]
                rw [show N / 4 * 4 + 2 = N by omega]
                simp only [toLE]
                rw [show N % 256 = p.toNat by omega,
                  show N / 256 % 256 = b1.toNat by omega,
                  show N / 256 / 256 % 256 = b2.toNat by omega,
                  show N / 256 / 256 / 256 % 256 = b3.toNat by omega,
                  ofNat_toNat8, ofNat_toNat8, ofNat_toNat8, ofNat_toNat8]
                rfl
              · rw [if_neg hc] at h
                simp at h
        · rw [if_neg h2] at h
          have h3 : p.toNat % 4 = 3 := by omega
          by_cases hw : w = .w8 ∨ w = .w16
          · rw [if_pos hw] at h; simp at h
          · rw [if_neg hw] at h
            by_cases hmax : p.toNat / 4 + 4 > w.maxBytes
            · rw [if_pos hmax] at h; simp at h
            · rw [if_neg hmax] at h
              simp only [readBytes] at h
              by_cases hlen : p.toNat / 4 + 4 ≤ r0.length
              · rw [if_pos hlen] at h
                simp only at h
                set bn := p.toNat / 4 + 4 with hbn
                have hbslen : (r0.take bn).length = bn := by
                  rw [List.length_take]; omega
                set x := fromLE (r0.take bn) with hx
                have hxlt : x < 2 ^ (8 * bn) := by
                  have := fromLE_lt (r0.take bn)
                  rwa [hbslen] at this
                by_cases hc : compactThreshold bn < x
                · rw [if_pos hc] at h
                  simp only [Prod.mk.injEq, Except.ok.injEq] at h
                  obtain ⟨hv, hr⟩ := h
                  subst hv; subst hr
                  have hbn4 : 4 ≤ bn := by omega
                  have hxbig : 0x3FFFFFFF < x := by
                    by_cases hb4 : bn = 4
                    · rw [hb4] at hc
                      simpa [compactThreshold] using hc
                    · have h5 : 5 ≤ bn := by omega
                      have : (2 : ℕ) ^ 32 ≤ 2 ^ (8 * (bn - 1)) :=
                        Nat.pow_le_pow_right (by norm_num) (by omega)
                      have hthr : compactThreshold bn = 2 ^ (8 * (bn - 1)) - 1 := by
                        simp [compactThreshold, hb4]
                      omega
                  have hxlow : 2 ^ (8 * (bn - 1)) ≤ x := by
                    by_cases hb4 : bn = 4
                    · rw [hb4]
                      have h24 : (2 : ℕ) ^ (8 * (4 - 1)) = 16777216 := by norm_num
                      omega
                    · have hthr : compactThreshold bn = 2 ^ (8 * (bn - 1)) - 1 := by
                        simp [compactThreshold, hb4]
                      have hpos : 0 < 2 ^ (8 * (bn - 1)) := Nat.pos_pow_of_pos _ (by norm_num)
                      omega
                  have hbnx : bytesNeeded x = bn := by
                    have := bytesNeeded_of_bounds (bn - 1) x
                      (by rwa [] at hxlow)
                      (by rw [show bn - 1 + 1 = bn by omega]; exact hxlt)
                    rwa [show bn - 1 + 1 = bn by omega] at this
                  simp only [compactEncode,
                    if_neg (by omega : ¬ x ≤ 0x3F),
                    if_neg (by omega : ¬ x ≤ 0x3FFF),
                    if_neg (by omega : ¬ x ≤ 0x3FFFFFFF)]
                  rw [hbnx]
                  rw [show (bn - 4) * 4 + 3 = p.toNat by omega, ofNat_toNat8]
                  have htle : toLE bn x = r0.take bn := by
                    conv_lhs => rw [← hbslen]
                    rw [hx]
                    exact toLE_fromLE _
                  rw [htle]
                  simp [List.take_append_drop]
                · rw [if_neg hc] at h
                  simp at h
              · rw [if_neg hlen] at h
                simp at h

/-- Re-encoding a fixed-width little-endian read reproduces the bytes
consumed. -/
theorem decodeUIntLE_append (n : Nat) (l : List UInt8) (v : Nat)
    (rest : List UInt8) (h : decodeUIntLE n l = .ok (v, rest)) :
    toLE n v ++ rest = l := by
  simp only [decodeUIntLE, readBytes] at h
  by_cases hn : n ≤ l.length
  · rw [if_pos hn] at h
    simp only [Except.ok.injEq, Prod.mk.injEq] at h
    obtain ⟨hv, hr⟩ := h
    subst hv; subst hr
    have hlen : (l.take n).length = n := by rw [List.length_take]; omega
    have h1 := toLE_fromLE (l.take n)
    rw [hlen] at h1
    rw [h1]
    exact List.take_append_drop n l
  · rw [if_neg hn] at h
    simp at h

/-- Re-encoding a decoded boolean reproduces the byte consumed. -/
theorem decodeBool_append (l : List UInt8) (b : Bool) (rest : List UInt8)
    (h : decodeBool l = .ok (b, rest)) : encodeBool b ++ rest = l := by
  cases l with
  | nil => simp [decodeBool, readByte] at h
  | cons x r =>
    simp only [decodeBool, readByte] at h
    by_cases h0 : x = 0
    · rw [if_pos h0] at h
      simp only [Except.ok.injEq, Prod.mk.injEq] at h
      obtain ⟨hb, hr⟩ := h
      subst hb; subst hr; subst h0
      rfl
    · rw [if_neg h0] at h
      by_cases h1 : x = 1
      · rw [if_pos h1] at h
        simp only [Except.ok.injEq, Prod.mk.injEq] at h
        obtain ⟨hb, hr⟩ := h
        subst hb; subst hr; subst h1
        rfl
      · rw [if_neg h1] at h
        simp at h

/-- Re-encoding a decoded string reproduces the bytes consumed. -/
theorem decodeStr_append (l bs rest : List UInt8)
    (h : decodeStr l = .ok (bs, rest)) :
    (compactEncode bs.length ++ bs) ++ rest = l := by
  simp only [decodeStr] at h
  rcases hc : decodeCompact .w32 l with ⟨cres, crest⟩
  rw [hc] at h
  cases cres with
  | error e => simp at h
  | ok n =>
    simp only [readBytes] at h
    by_cases hn : n ≤ crest.length
    · rw [if_pos hn] at h
      dsimp only at h
      by_cases hu : utf8Valid (crest.take n) = true
      · rw [if_pos hu] at h
        simp only [Except.ok.injEq, Prod.mk.injEq] at h
        obtain ⟨hb, hr⟩ := h
        subst hb; subst hr
        have hlen : (crest.take n).length = n := by rw [List.length_take]; omega
        rw [hlen]
        have henc := decodeCompact_append .w32 l n crest hc
        rw [List.append_assoc, ← henc]
        congr 1
        exact List.take_append_drop n crest
      · rw [if_neg hu] at h
        simp at h
    · rw [if_neg hn] at h
      simp at h

/-- The primitive arm of the walker appends exactly the bytes it
consumed (for every primitive on which it succeeds). -/
theorem decodePrimitive_append (p : TypeDefPrimitive)
    (input output i' o' : List UInt8)
    (h : decodePrimitive p input output = .ok (i', o')) :
    ∃ c, input = c ++ i' ∧ o' = output ++ c := by
  have fixedCase : ∀ n, (match decodeUIntLE n input with
      | .ok (v, rest) => ERes.ok (rest, output ++ toLE n v)
      | .error e => ERes.err e) = .ok (i', o') →
      ∃ c, input = c ++ i' ∧ o' = output ++ c := by
    intro n hm
    rcases hu : decodeUIntLE n input with ⟨⟩ | ⟨v, rest⟩
    · rw [hu] at hm; simp at hm
    · rw [hu] at hm
      simp only [ERes.ok.injEq, Prod.mk.injEq] at hm
      obtain ⟨hr, ho⟩ := hm
      subst hr; subst ho
      exact ⟨toLE n v, (decodeUIntLE_append n input v rest hu).symm, rfl⟩
  cases p with
  | bool =>
    simp only [decodePrimitive] at h
    rcases hb : decodeBool input with ⟨⟩ | ⟨b, rest⟩
    · rw [hb] at h; simp at h
    · rw [hb] at h
      simp only [ERes.ok.injEq, Prod.mk.injEq] at h
      obtain ⟨hr, ho⟩ := h
      subst hr; subst ho
      exact ⟨encodeBool b, (decodeBool_append input b rest hb).symm, rfl⟩
  | char => simp [decodePrimitive] at h
  | str =>
    simp only [decodePrimitive] at h
    rcases hs : decodeStr input with ⟨⟩ | ⟨bs, rest⟩
    · rw [hs] at h; simp at h
    · rw [hs] at h
      simp only [ERes.ok.injEq, Prod.mk.injEq] at h
      obtain ⟨hr, ho⟩ := h
      subst hr; subst ho
      refine ⟨compactEncode bs.length ++ bs, ?_, by simp⟩
      rw [← decodeStr_append input bs rest hs]
  | u8 => exact fixedCase 1 h
  | u16 => exact fixedCase 2 h
  | u32 => exact fixedCase 4 h
  | u64 => exact fixedCase 8 h
  | u128 => exact fixedCase 16 h
  | u256 => simp [decodePrimitive] at h
  | i8 => exact fixedCase 1 h
  | i16 => exact fixedCase 2 h
  | i32 => exact fixedCase 4 h
  | i64 => exact fixedCase 8 h
  | i128 => exact fixedCase 16 h
  | i256 => simp [decodePrimitive] at h

/-! ## Step lemmas for the walker -/

theorem go_ty_composite {m : Metadata} {tid : Nat} {fs : List Nat}
    (fuel : Nat) (i o : List UInt8)
    (h : m.resolve_type tid = some (.composite fs)) :
    decodeGo m (fuel + 1) (.ty tid) i o = decodeGo m fuel (.fieldList fs) i o := by
  simp [decodeGo, h]

theorem go_ty_sequence {m : Metadata} {tid t : Nat} (fuel : Nat)
    (i o : List UInt8) (h : m.resolve_type tid = some (.sequence t)) :
    decodeGo m (fuel + 1) (.ty tid) i o =
      match decodeCompact .w32 i with
      | (.error e, _) => .err e
      | (.ok n, i1) => decodeGo m fuel (.rep t n) i1 (o ++ compactEncode n) := by
  simp [decodeGo, h]

theorem go_ty_array {m : Metadata} {tid len t : Nat} (fuel : Nat)
    (i o : List UInt8) (h : m.resolve_type tid = some (.array len t)) :
    decodeGo m (fuel + 1) (.ty tid) i o = decodeGo m fuel (.rep t len) i o := by
  simp [decodeGo, h]

theorem go_ty_tuple {m : Metadata} {tid : Nat} {fs : List Nat} (fuel : Nat)
    (i o : List UInt8) (h : m.resolve_type tid = some (.tuple fs)) :
    decodeGo m (fuel + 1) (.ty tid) i o = decodeGo m fuel (.fieldList fs) i o := by
  simp [decodeGo, h]

theorem go_ty_primitive {m : Metadata} {tid : Nat} {p : TypeDefPrimitive}
    (fuel : Nat) (i o : List UInt8)
    (h : m.resolve_type tid = some (.primitive p)) :
    decodeGo m (fuel + 1) (.ty tid) i o = decodePrimitive p i o := by
  simp [decodeGo, h]

/-- On a `Compact` definition the walker always runs the nested-compact
workaround: the discarded first match leaves the state unchanged and the
second match decodes a `Compact<u128>`, whatever the type parameter is. -/
theorem go_ty_compact {m : Metadata} {tid t : Nat} (fuel : Nat)
    (i o : List UInt8) (h : m.resolve_type tid = some (.compact t)) :
    decodeGo m (fuel + 1) (.ty tid) i o =
      match decodeCompact .w128 i with
      | (.ok v, i2) => .ok (i2, o ++ compactEncode v)
      | (.error e, _) => .err e := by
  simp [decodeGo, h, compactFirstMatch]

theorem go_ty_bitSequence {m : Metadata} {tid : Nat} (fuel : Nat)
    (i o : List UInt8) (h : m.resolve_type tid = some .bitSequence) :
    decodeGo m (fuel + 1) (.ty tid) i o =
      .err (.panicked "BitVec decoding for events not implemented yet") := by
  simp [decodeGo, h]

theorem go_fieldList_nil (m : Metadata) (fuel : Nat) (i o : List UInt8) :
    decodeGo m (fuel + 1) (.fieldList []) i o = .ok (i, o) := rfl

theorem go_fieldList_cons (m : Metadata) (fuel : Nat) (f : Nat)
    (fs : List Nat) (i o : List UInt8) :
    decodeGo m (fuel + 1) (.fieldList (f :: fs)) i o =
      match decodeGo m fuel (.ty f) i o with
      | .ok (i1, o1) => decodeGo m fuel (.fieldList fs) i1 o1
      | .err e => .err e
      | .fuelOut => .fuelOut := rfl

theorem go_rep_zero (m : Metadata) (fuel t : Nat) (i o : List UInt8) :
    decodeGo m (fuel + 1) (.rep t 0) i o = .ok (i, o) := rfl

theorem go_rep_succ (m : Metadata) (fuel t n : Nat) (i o : List UInt8) :
    decodeGo m (fuel + 1) (.rep t (n + 1)) i o =
      match decodeGo m fuel (.ty t) i o with
      | .ok (i1, o1) => decodeGo m fuel (.rep t n) i1 o1
      | .err e => .err e
      | .fuelOut => .fuelOut := rfl

/-! ## Byte-identity of the walker on plain types -/

/-- The "plain" types of the byte-identity property: composite,
sequence, array, tuple or primitive, recursively through the element and
field types, with compact-wrapped primitives of the five compact widths
also allowed; variant and compact-wrapped composites are excluded. -/
inductive Plain (m : Metadata) : Nat → Prop where
  | composite {id : Nat} {fields : List Nat} :
      m.resolve_type id = some (.composite fields) →
      (∀ f ∈ fields, Plain m f) → Plain m id
  | sequence {id t : Nat} : m.resolve_type id = some (.sequence t) →
      Plain m t → Plain m id
  | array {id n t : Nat} : m.resolve_type id = some (.array n t) →
      Plain m t → Plain m id
  | tuple {id : Nat} {fields : List Nat} :
      m.resolve_type id = some (.tuple fields) →
      (∀ f ∈ fields, Plain m f) → Plain m id
  | primitive {id : Nat} {p : TypeDefPrimitive} :
      m.resolve_type id = some (.primitive p) → Plain m id
  | compactPrim {id t : Nat} {p : TypeDefPrimitive} :
      m.resolve_type id = some (.compact t) →
      m.resolve_type t = some (.primitive p) →
      p ∈ [TypeDefPrimitive.u8, .u16, .u32, .u64, .u128] → Plain m id

/-- Plainness of a walker job. -/
def PlainJob (m : Metadata) : Job → Prop
  | .ty tid => Plain m tid
  | .fieldList fs => ∀ f ∈ fs, Plain m f
  | .rep t _ => Plain m t

/-- On plain jobs the walker appends to the output exactly the bytes it
consumes from the input. -/
theorem go_byte_identity :
    ∀ fuel (m : Metadata) (job : Job) (input output i' o' : List UInt8),
      PlainJob m job → decodeGo m fuel job input output = .ok (i', o') →
      ∃ c, input = c ++ i' ∧ o' = output ++ c := by
  intro fuel
  induction fuel with
  | zero =>
    intro m job i o i' o' _ h
    simp [decodeGo] at h
  | succ fuel ih =>
    intro m job input output i' o' hpl h
    cases job with
    | fieldList fs =>
      cases fs with
      | nil =>
        rw [go_fieldList_nil] at h
        simp only [ERes.ok.injEq, Prod.mk.injEq] at h
        obtain ⟨h1, h2⟩ := h
        subst h1; subst h2
        exact ⟨[], rfl, by simp⟩
      | cons f fs =>
        rw [go_fieldList_cons] at h
        rcases hg : decodeGo m fuel (.ty f) input output with ⟨⟨i1, o1⟩⟩ | e | _ <;>
          rw [hg] at h
        · obtain ⟨c1, hc1i, hc1o⟩ :=
            ih m (.ty f) input output i1 o1 (hpl f (by simp)) hg
          obtain ⟨c2, hc2i, hc2o⟩ :=
            ih m (.fieldList fs) i1 o1 i' o'
              (fun x hx => hpl x (List.mem_cons_of_mem _ hx)) h
          exact ⟨c1 ++ c2, by rw [hc1i, hc2i, List.append_assoc],
            by rw [hc2o, hc1o, List.append_assoc]⟩
        · simp at h
        · simp at h
    | rep t n =>
      cases n with
      | zero =>
        rw [go_rep_zero] at h
        simp only [ERes.ok.injEq, Prod.mk.injEq] at h
        obtain ⟨h1, h2⟩ := h
        subst h1; subst h2
        exact ⟨[], rfl, by simp⟩
      | succ n =>
        rw [go_rep_succ] at h
        rcases hg : decodeGo m fuel (.ty t) input output with ⟨⟨i1, o1⟩⟩ | e | _ <;>
          rw [hg] at h
        · obtain ⟨c1, hc1i, hc1o⟩ := ih m (.ty t) input output i1 o1 hpl hg
          obtain ⟨c2, hc2i, hc2o⟩ := ih m (.rep t n) i1 o1 i' o' hpl h
          exact ⟨c1 ++ c2, by rw [hc1i, hc2i, List.append_assoc],
            by rw [hc2o, hc1o, List.append_assoc]⟩
        · simp at h
        · simp at h
    | ty tid =>
      cases hpl with
      | composite hres hf =>
        rw [go_ty_composite fuel input output hres] at h
        exact ih m (.fieldList _) input output i' o' hf h
      | sequence hres hel =>
        rw [go_ty_sequence fuel input output hres] at h
        rcases hc : decodeCompact .w32 input with ⟨cres, i1⟩
        rw [hc] at h
        cases cres with
        | error e => simp at h
        | ok n =>
          simp only at h
          obtain ⟨c2, hc2i, hc2o⟩ := ih m (.rep _ n) i1 _ i' o' hel h
          refine ⟨compactEncode n ++ c2, ?_, ?_⟩
          · rw [← decodeCompact_append .w32 input n i1 hc, hc2i,
              List.append_assoc]
          · rw [hc2o, List.append_assoc]
      | array hres hel =>
        rw [go_ty_array fuel input output hres] at h
        exact ih m (.rep _ _) input output i' o' hel h
      | tuple hres hf =>
        rw [go_ty_tuple fuel input output hres] at h
        exact ih m (.fieldList _) input output i' o' hf h
      | primitive hres =>
        rw [go_ty_primitive fuel input output hres] at h
        exact decodePrimitive_append _ input output i' o' h
      | compactPrim hres hft hmem =>
        rw [go_ty_compact fuel input output hres] at h
        rcases hc : decodeCompact .w128 input with ⟨cres, i2⟩
        rw [hc] at h
        cases cres with
        | error e => simp at h
        | ok v =>
          simp only [ERes.ok.injEq, Prod.mk.injEq] at h
          obtain ⟨h1, h2⟩ := h
          subst h1; subst h2
          exact ⟨compactEncode v,
            (decodeCompact_append .w128 input v i2 hc).symm, rfl⟩

/-! ## Concrete registries and claim theorems -/

/-- Registry for the concrete Balances/Transfer scenario: pallet 5,
variant 2 is `Balances::Transfer` with fields `[AccountId(32 bytes),
AccountId(32 bytes), Compact<u128>]`. -/
def balancesReg : Metadata :=
  { types := fun id =>
      if id = 0 then some (.primitive .u8)
      else if id = 1 then some (.array 32 0)
      else if id = 2 then some (.primitive .u128)
      else if id = 3 then some (.compact 2)
      else none,
    events := fun p v =>
      if p = 5 ∧ v = 2 then some ⟨"Balances", "Transfer", [1, 1, 3]⟩
      else none }

/-- The concrete wire input: compact count 1, `Phase::Initialization`,
pallet 5, variant 2, 32 zero bytes, 32 bytes `0x11`, compact 1000,
topics count 0. -/
def transferInput : List UInt8 :=
  [4, 2, 5, 2] ++ List.replicate 32 0 ++ List.replicate 32 0x11
    ++ [0xa1, 0x0f] ++ [0]

/-- C1: on the concrete scenario — registry `balancesReg`, input
`transferInput` — `decode_events` succeeds with exactly one pair whose
phase is `Initialization` and whose `RawEvent` carries pallet
`"Balances"` (index 5), variant `"Transfer"` (index 2) and data equal to
the 64 raw account bytes followed by the compact encoding of 1000. -/
theorem c1_concrete_scenario :
    decode_events 200 balancesReg 32 transferInput =
      .ok [(.initialization,
        { pallet := "Balances", pallet_index := 5, variant := "Transfer",
          variant_index := 2,
          data := List.replicate 32 0 ++ List.replicate 32 0x11
            ++ compactEncode 1000 })] := by decide

/-- A registry declaring type 0 as `Compact` over the primitive `u8`. -/
def compactU8Reg : Metadata :=
  { types := fun id =>
      if id = 0 then some (.compact 1)
      else if id = 1 then some (.primitive .u8) else none,
    events := fun _ _ => none }

/-- C2 (evaluation at the failing input): for a `Compact` whose resolved
type parameter is the primitive `U8`, the walker does not read a
`u8`-width compact — it accepts the compact encoding of 1000 (out of
range for `u8`, which a width-specific `Compact<u8>` read rejects as out
of range) and re-encodes it, because `inner` is resolved from `type_id`
itself and always lands in the nested-`Compact` `u128` workaround arm. -/
theorem c2_compact_width_ignored :
    decode_type 5 compactU8Reg 0 [0xa1, 0x0f] [] =
        .ok ([], compactEncode 1000) ∧
      decodeCompact .w8 [0xa1, 0x0f] =
        (.error (.codec "out of range decoding Compact"), []) := by decide

/-- A registry declaring type 0 as `Compact` over a zero-field
composite. -/
def compactEmptyReg : Metadata :=
  { types := fun id =>
      if id = 0 then some (.compact 1)
      else if id = 1 then some (.composite []) else none,
    events := fun _ _ => none }

/-- A registry declaring type 0 as `Compact` over the primitive `bool`. -/
def compactBoolReg : Metadata :=
  { types := fun id =>
      if id = 0 then some (.compact 1)
      else if id = 1 then some (.primitive .bool) else none,
    events := fun _ _ => none }

/-- C3 (evaluation at the failing inputs): a `Compact` over a zero-field
composite is not rejected with `InvalidCompactType`, and a `Compact`
over the primitive `Bool` is not rejected with
`InvalidCompactPrimitive`: both succeed, decoding a `Compact<u128>`
(here the byte `4`, the compact encoding of 1), because the error arms
match on the re-resolved `type_id` — the `Compact` definition itself —
and are unreachable. -/
theorem c3_invalid_compact_not_rejected :
    decode_type 5 compactEmptyReg 0 [4] [] = .ok ([], [4]) ∧
      decode_type 5 compactBoolReg 0 [4] [] = .ok ([], [4]) := by decide

/-- A registry declaring type 0 as a bit sequence. -/
def bitSeqReg : Metadata :=
  { types := fun id => if id = 0 then some .bitSequence else none,
    events := fun _ _ => none }

/-- C4 counterexample: on a `BitSequence` field the walker does not
return a typed `Unimplemented` error — it panics (`unimplemented!`),
modelled as the `panicked` outcome. -/
theorem c4_counterexample :
    decode_type 1 bitSeqReg 0 [] [] =
      .err (.panicked "BitVec decoding for events not implemented yet") := by
  decide

/-- C4 (amended): for every registry, every type id resolving to
`BitSequence`, every input and output and any positive fuel, the walk
fails deterministically — but by the `unimplemented!` panic (an abort),
not by returning a typed `Unimplemented` error. -/
theorem c4_bitsequence_panics (m : Metadata) (tid : Nat)
    (input output : List UInt8) (fuel : Nat)
    (hty : m.resolve_type tid = some .bitSequence) (hf : 0 < fuel) :
    decode_type fuel m tid input output =
      .err (.panicked "BitVec decoding for events not implemented yet") := by
  obtain ⟨f, rfl⟩ : ∃ f, fuel = f + 1 := ⟨fuel - 1, by omega⟩
  exact go_ty_bitSequence f input output hty

/-- Witness for C4's amended theorem at a concrete registry and input. -/
theorem c4_witness :
    bitSeqReg.resolve_type 0 = some .bitSequence ∧ 0 < 1 ∧
      decode_type 1 bitSeqReg 0 [9] [] =
        .err (.panicked "BitVec decoding for events not implemented yet") :=
  ⟨rfl, Nat.one_pos,
    c4_bitsequence_panics bitSeqReg 0 [9] [] 1 rfl Nat.one_pos⟩

/-- A registry whose type 0 is a composite whose single field is type 0
itself. -/
def cyclicReg : Metadata :=
  { types := fun id => if id = 0 then some (.composite [0]) else none,
    events := fun _ _ => none }

/-- On the self-referential composite the walker makes no progress at
any fuel, in either the type or the field-list role. -/
theorem cyclic_fuelOut : ∀ fuel (input output : List UInt8),
    decodeGo cyclicReg fuel (.ty 0) input output = .fuelOut ∧
    decodeGo cyclicReg fuel (.fieldList [0]) input output = .fuelOut := by
  intro fuel
  induction fuel with
  | zero => intro i o; exact ⟨rfl, rfl⟩
  | succ fuel ih =>
    intro i o
    have hres : cyclicReg.resolve_type 0 = some (.composite [0]) := rfl
    constructor
    · rw [go_ty_composite fuel i o hres]
      exact (ih i o).2
    · rw [go_fieldList_cons, (ih i o).1]

/-- The walk of `typeId` on `input`/`output` diverges: at every fuel
bound it has still not completed (the fuel model of a Rust execution
that recurses forever). -/
def divergesAt (m : Metadata) (typeId : Nat) (input output : List UInt8) : Prop :=
  ∀ fuel, decode_type fuel m typeId input output = .fuelOut

/-- C9 counterexample: on the registry whose type 0 is a composite whose
single field is itself, the walker diverges on the empty input — it
neither terminates by consuming wire data nor returns a
depth-ceiling error. -/
theorem c9_counterexample : divergesAt cyclicReg 0 [] [] :=
  fun fuel => (cyclic_fuelOut fuel [] []).1

/-- C9 (amended): `decode_type` imposes no recursion-depth ceiling, and
the finite input does not bound the recursion: on a registry with a
composite whose field refers back to itself, the walk diverges on every
input and output buffer instead of returning an error. -/
theorem c9_no_termination :
    ∀ input output : List UInt8, divergesAt cyclicReg 0 input output :=
  fun i o fuel => (cyclic_fuelOut fuel i o).1

/-- C5: atomic failure of the stream decoder — for every registry,
input, fuel and record count, if the records up to position `k` decode
successfully and the record at position `k` (with `k < n`) fails with
error `e`, then the whole loop returns exactly `.err e`: no partial list
of the previously decoded events is produced. -/
theorem c5_atomic_failure (fuel : Nat) (m : Metadata) (hashLen : Nat) :
    ∀ (k n : Nat) (s sk : List UInt8) (e : DecErr), k < n →
      stateAfter fuel m hashLen k s = .ok sk →
      decodeRecord fuel m hashLen sk = .err e →
      decodeEventsLoop fuel m hashLen n s = .err e := by
  intro k
  induction k with
  | zero =>
    intro n s sk e hk hs hf
    simp only [stateAfter, ERes.ok.injEq] at hs
    subst hs
    obtain ⟨n', rfl⟩ : ∃ n', n = n' + 1 := ⟨n - 1, by omega⟩
    simp only [decodeEventsLoop]
    rw [hf]
  | succ k ih =>
    intro n s sk e hk hs hf
    obtain ⟨n', rfl⟩ : ∃ n', n = n' + 1 := ⟨n - 1, by omega⟩
    simp only [stateAfter] at hs
    rcases hr : decodeRecord fuel m hashLen s with ⟨⟨pr, s1⟩⟩ | e1 | _ <;>
      rw [hr] at hs
    · dsimp only at hs
      simp only [decodeEventsLoop]
      rw [hr]
      dsimp only
      rw [ih n' s1 sk e (by omega) hs hf]
    · simp at hs
    · simp at hs

/-- The registry with no declared events and no declared types. -/
def emptyReg : Metadata :=
  { types := fun _ => none, events := fun _ _ => none }

/-- Witness for C5 at a concrete input whose first record has an
unregistered `(pallet_index, variant_index)` pair. -/
theorem c5_witness :
    (0 : Nat) < 1 ∧
      stateAfter 3 emptyReg 32 0 [2, 9, 9] = .ok [2, 9, 9] ∧
      decodeRecord 3 emptyReg 32 [2, 9, 9] = .err (.eventNotFound 9 9) ∧
      decodeEventsLoop 3 emptyReg 32 1 [2, 9, 9] = .err (.eventNotFound 9 9) :=
  ⟨Nat.one_pos, by decide, by decide,
    c5_atomic_failure 3 emptyReg 32 0 1 [2, 9, 9] [2, 9, 9]
      (.eventNotFound 9 9) Nat.one_pos (by decide) (by decide)⟩

/-- C6: trichotomy of the typed projection — `as_event` answers
`Ok (Some _)` only when both names match, answers `Ok None` (never an
error) whenever the names do not match regardless of the payload, and
answers an error only when the names match and the payload fails to
decode as `E` (returning that very decode error). -/
theorem c6_as_event_trichotomy {α : Type} (E : EventType α) (raw : RawEvent) :
    (∀ e, as_event E raw = .ok (some e) →
      raw.pallet = E.PALLET ∧ raw.variant = E.EVENT) ∧
    (¬(raw.pallet = E.PALLET ∧ raw.variant = E.EVENT) →
      as_event E raw = .ok none) ∧
    (∀ ce, as_event E raw = .error ce →
      (raw.pallet = E.PALLET ∧ raw.variant = E.EVENT) ∧
        E.decode raw.data = .error ce) := by
  by_cases h : raw.pallet = E.PALLET ∧ raw.variant = E.EVENT
  · refine ⟨fun e _ => h, fun hn => absurd h hn, fun ce hce => ⟨h, ?_⟩⟩
    unfold as_event at hce
    rw [if_pos h] at hce
    rcases hd : E.decode raw.data with er | ⟨a, rst⟩ <;> rw [hd] at hce
    · simp only [Except.error.injEq] at hce
      subst hce
      rfl
    · simp at hce
  · have hv : as_event E raw = .ok none := by
      unfold as_event
      rw [if_neg h]
    refine ⟨fun e he => ?_, fun _ => hv, fun ce hce => ?_⟩
    · rw [hv] at he
      simp at he
    · rw [hv] at hce
      simp at hce

/-- A concrete statically-known event type (pallet `Balances`, event
`Transfer`, decoding one byte). -/
def probeEvent : EventType UInt8 :=
  { PALLET := "Balances", EVENT := "Transfer",
    decode := fun l =>
      match l with
      | b :: r => .ok (b, r)
      | [] => .error (.codec "Not enough data to fill buffer") }

/-- A raw event whose names do not match `probeEvent`. -/
def sampleRaw : RawEvent :=
  { pallet := "System", pallet_index := 0, variant := "Remarked",
    variant_index := 1, data := [7] }

/-- Witness for C6 at a concrete mismatching event. -/
theorem c6_witness : as_event probeEvent sampleRaw = .ok none :=
  (c6_as_event_trichotomy probeEvent sampleRaw).2.1 (by decide)

/-- Order and content of a successful record loop: the output has one
entry per record, and the `i`-th entry is exactly the pair produced by
decoding the `i`-th record (at the input position reached after `i`
records). -/
theorem decodeEventsLoop_order (fuel : Nat) (m : Metadata) (hashLen : Nat) :
    ∀ (n : Nat) (s : List UInt8) (r : List (Phase × RawEvent)),
      decodeEventsLoop fuel m hashLen n s = .ok r →
      r.length = n ∧
      ∀ i, i < n → ∃ si pr si',
        stateAfter fuel m hashLen i s = .ok si ∧
        decodeRecord fuel m hashLen si = .ok (pr, si') ∧
        r.get? i = some pr := by
  intro n
  induction n with
  | zero =>
    intro s r h
    simp only [decodeEventsLoop, ERes.ok.injEq] at h
    subst h
    exact ⟨rfl, fun i hi => absurd hi (by omega)⟩
  | succ n ih =>
    intro s r h
    simp only [decodeEventsLoop] at h
    rcases hr : decodeRecord fuel m hashLen s with ⟨⟨pr, s1⟩⟩ | e | _ <;>
      rw [hr] at h <;> dsimp only at h
    · rcases hl : decodeEventsLoop fuel m hashLen n s1 with l | e | _ <;>
        rw [hl] at h
      · simp only [ERes.ok.injEq] at h
        subst h
        obtain ⟨hlen, hrec⟩ := ih s1 l hl
        refine ⟨by simp [hlen], fun i hi => ?_⟩
        cases i with
        | zero => exact ⟨s, pr, s1, rfl, hr, rfl⟩
        | succ i =>
          obtain ⟨si, pri, si', h1, h2, h3⟩ := hrec i (by omega)
          refine ⟨si, pri, si', ?_, h2, ?_⟩
          · simp only [stateAfter]
            rw [hr]
            exact h1
          · simpa using h3
      · simp at h
      · simp at h
    · simp at h
    · simp at h

/-- C7: order preservation — whenever `decode_events` succeeds, the
compact record count `n` was read, the output has exactly `n` pairs, and
the `i`-th output pair (phase included) is the one decoded from the
`i`-th record of the input. -/
theorem c7_order_preservation (fuel : Nat) (m : Metadata) (hashLen : Nat)
    (input : List UInt8) (r : List (Phase × RawEvent))
    (h : decode_events fuel m hashLen input = .ok r) :
    ∃ n rest, decodeCompact .w32 input = (.ok n, rest) ∧ r.length = n ∧
      ∀ i, i < n → ∃ si pr si',
        stateAfter fuel m hashLen i rest = .ok si ∧
        decodeRecord fuel m hashLen si = .ok (pr, si') ∧
        r.get? i = some pr := by
  simp only [decode_events] at h
  rcases hc : decodeCompact .w32 input with ⟨cres, rest⟩
  rw [hc] at h
  cases cres with
  | error e => simp at h
  | ok n =>
    simp only at h
    obtain ⟨hlen, hrec⟩ := decodeEventsLoop_order fuel m hashLen n rest r h
    exact ⟨n, rest, rfl, hlen, hrec⟩

/-- A registry with a single one-byte event `A::E` at pallet 1,
variant 1. -/
def orderReg : Metadata :=
  { types := fun id => if id = 0 then some (.primitive .u8) else none,
    events := fun p v => if p = 1 ∧ v = 1 then some ⟨"A", "E", [0]⟩
      else none }

/-- Two records: `ApplyExtrinsic 0` with payload 7 and `ApplyExtrinsic 1`
with payload 9, each with zero topics. -/
def orderInput : List UInt8 :=
  [8] ++ [0, 0, 0, 0, 0, 1, 1, 7, 0] ++ [0, 1, 0, 0, 0, 1, 1, 9, 0]

/-- The decoded pairs of `orderInput`. -/
def orderPairs : List (Phase × RawEvent) :=
  [(.applyExtrinsic 0,
     { pallet := "A", pallet_index := 1, variant := "E",
       variant_index := 1, data := [7] }),
   (.applyExtrinsic 1,
     { pallet := "A", pallet_index := 1, variant := "E",
       variant_index := 1, data := [9] })]

/-- Witness for C7 at the concrete two-record input. -/
theorem c7_witness :
    decode_events 3 orderReg 32 orderInput = .ok orderPairs ∧
    ∃ n rest, decodeCompact .w32 orderInput = (.ok n, rest) ∧
      orderPairs.length = n ∧
      ∀ i, i < n → ∃ si pr si',
        stateAfter 3 orderReg 32 i rest = .ok si ∧
        decodeRecord 3 orderReg 32 si = .ok (pr, si') ∧
        orderPairs.get? i = some pr :=
  ⟨by decide, c7_order_preservation 3 orderReg 32 orderInput orderPairs
    (by decide)⟩

/-- C10: the typed projection depends only on the pallet name, the
variant name and the data bytes — two raw events agreeing on those three
fields (whatever their numeric indices) project identically for every
target event type. -/
theorem c10_indices_irrelevant {α : Type} (E : EventType α)
    (r1 r2 : RawEvent) (hp : r1.pallet = r2.pallet)
    (hv : r1.variant = r2.variant) (hd : r1.data = r2.data) :
    as_event E r1 = as_event E r2 := by
  unfold as_event
  rw [hp, hv, hd]

/-- A raw event matching `probeEvent` with indices 5 and 2. -/
def idxRaw1 : RawEvent :=
  { pallet := "Balances", pallet_index := 5, variant := "Transfer",
    variant_index := 2, data := [7] }

/-- The same names and data as `idxRaw1`, different indices. -/
def idxRaw2 : RawEvent :=
  { pallet := "Balances", pallet_index := 99, variant := "Transfer",
    variant_index := 42, data := [7] }

/-- Witness for C10 at two concrete raw events differing only in their
numeric indices. -/
theorem c10_witness :
    idxRaw1.pallet = idxRaw2.pallet ∧ idxRaw1.variant = idxRaw2.variant ∧
    idxRaw1.data = idxRaw2.data ∧
    as_event probeEvent idxRaw1 = as_event probeEvent idxRaw2 :=
  ⟨rfl, rfl, rfl, c10_indices_irrelevant probeEvent idxRaw1 idxRaw2 rfl rfl rfl⟩

/-- C8: byte-identical re-encoding — for every plain type (composite,
sequence, array, tuple or primitive, recursively, with compact-wrapped
primitives allowed and variants and compact-wrapped composites excluded)
on which the walk succeeds, the bytes appended to the output are exactly
the bytes consumed from the input, and the cursor advances by exactly
that many bytes. -/
theorem c8_byte_identity (fuel : Nat) (m : Metadata) (typeId : Nat)
    (input output i' o' : List UInt8) (hpl : Plain m typeId)
    (h : decode_type fuel m typeId input output = .ok (i', o')) :
    ∃ c, input = c ++ i' ∧ o' = output ++ c :=
  go_byte_identity fuel m (.ty typeId) input output i' o' hpl h

/-- A registry with a pair-of-`u8` tuple at type 0. -/
def u8PairReg : Metadata :=
  { types := fun id =>
      if id = 0 then some (.tuple [1, 1])
      else if id = 1 then some (.primitive .u8) else none,
    events := fun _ _ => none }

/-- Witness for C8 at a concrete plain type and input. -/
theorem c8_witness :
    Plain u8PairReg 0 ∧
    decode_type 10 u8PairReg 0 [7, 8, 9] [] = .ok ([9], [7, 8]) ∧
    ∃ c, ([7, 8, 9] : List UInt8) = c ++ [9] ∧
      ([7, 8] : List UInt8) = [] ++ c := by
  have hp1 : Plain u8PairReg 1 :=
    @Plain.primitive u8PairReg 1 TypeDefPrimitive.u8 (by decide)
  have hpl : Plain u8PairReg 0 := by
    refine @Plain.tuple u8PairReg 0 [1, 1] (by decide) ?_
    intro f hf
    have hf1 : f = 1 := by simpa using hf
    subst hf1
    exact hp1
  exact ⟨hpl, by decide,
    c8_byte_identity 10 u8PairReg 0 [7, 8, 9] [] [9] [7, 8] hpl (by decide)⟩
